import Mathlib

/-!
# Verification of the Document Index & Retrieval Engine and its web frontend

This file gives a shallow embedding, in Lean 4, of the algorithmic content of
the repository: the React frontend helpers that are present in the source tree
(`SourcesDisplay` grouping, `formatFileSize`), and the Document Index &
Retrieval Engine core (Chunker, Metadata Store, Vector Index, Index Manager,
Retrieval Engine), whose implementation is not part of the source tree and is
therefore modelled from the specification.

Numbers are embedded exactly: similarity scores and vector components become
rationals (`ℚ`), byte counts and identifiers become naturals (`ℕ`).
-/

namespace RagSystem

/-! ## Frontend: `SourcesDisplay` (src/unnamed/part_006)

A retrieved source as consumed by the `SourcesDisplay` React component.  The
component reads `title`, `filename` and `similarity_score`; the score is
optional (`similarity_score?.toFixed(3)` in the source guards against an
absent score, and JavaScript comparisons with `undefined` are false). -/
structure Source where
  title : String
  filename : String
  similarity_score : Option ℚ
deriving DecidableEq, Repr

/-- `charsContains sub hay = true` iff `sub` occurs as a contiguous substring
of `hay`; this is JavaScript's `String.prototype.includes` on char lists. -/
def charsContains (sub : List Char) : List Char → Bool
  | [] => sub.isEmpty
  | c :: t => sub.isPrefixOf (c :: t) || charsContains sub t

/-- JavaScript `str.toLowerCase()`, character by character. -/
def jsLower (s : String) : List Char :=
  s.data.map Char.toLower

/-- The filter predicate of `filteredSources`:
`source.title.toLowerCase().includes(searchTerm.toLowerCase()) ||
 source.filename.toLowerCase().includes(searchTerm.toLowerCase())`. -/
def matchesSearch (term : String) (s : Source) : Bool :=
  charsContains (jsLower term) (jsLower s.title) ||
    charsContains (jsLower term) (jsLower s.filename)

/-- `HIGH_RELEVANCE_THRESHOLD = 0.8` in `SourcesDisplay`. -/
def HIGH_RELEVANCE_THRESHOLD : ℚ := 8 / 10

/-- JavaScript `x >= c` where `x` may be `undefined`: comparison with
`undefined` is `false`. -/
def jsGe (x : Option ℚ) (c : ℚ) : Bool :=
  match x with
  | some q => decide (c ≤ q)
  | none => false

/-- JavaScript `x < c` where `x` may be `undefined`: comparison with
`undefined` is `false`. -/
def jsLt (x : Option ℚ) (c : ℚ) : Bool :=
  match x with
  | some q => decide (q < c)
  | none => false

/-- `const filteredSources = sources.filter(source => ...)`. -/
def filteredSources (sources : List Source) (term : String) : List Source :=
  sources.filter (matchesSearch term)

/-- `const highRelevanceSources = filteredSources.filter(s => s.similarity_score >= HIGH_RELEVANCE_THRESHOLD)`. -/
def highRelevanceSources (sources : List Source) (term : String) : List Source :=
  (filteredSources sources term).filter
    (fun s => jsGe s.similarity_score HIGH_RELEVANCE_THRESHOLD)

/-- `const regularSources = filteredSources.filter(s => s.similarity_score < HIGH_RELEVANCE_THRESHOLD)`. -/
def regularSources (sources : List Source) (term : String) : List Source :=
  (filteredSources sources term).filter
    (fun s => jsLt s.similarity_score HIGH_RELEVANCE_THRESHOLD)

/-! ## Frontend: `formatFileSize` (src/unnamed/part_007)

```js
const formatFileSize = (bytes) => {
  if (bytes === 0) return '0 Bytes';
  const k = 1024;
  const sizes = ['Bytes', 'KB', 'MB', 'GB'];
  const i = Math.floor(Math.log(bytes) / Math.log(k));
  return parseFloat((bytes / Math.pow(k, i)).toFixed(2)) + ' ' + sizes[i];
};
```

The result is embedded structurally: the zero branch returns the literal
string, and the general branch returns the rounded numeric value together with
the (possibly out-of-bounds, hence optional) unit lookup `sizes[i]`.
`Math.log(bytes) / Math.log(1024)` is real, not floating-point, logarithm
here, so its floor on a positive natural is `Nat.log 1024 bytes`. -/
inductive FileSizeResult where
  | zeroBytes : FileSizeResult
  | sized (value : ℚ) (unit : Option String) : FileSizeResult
deriving DecidableEq, Repr

/-- `const sizes = ['Bytes', 'KB', 'MB', 'GB']`. -/
def sizes : List String := ["Bytes", "KB", "MB", "GB"]

/-- `(x).toFixed(2)` followed by `parseFloat`: round to two decimal places. -/
def roundTo2 (x : ℚ) : ℚ :=
  (round (x * 100) : ℤ) / 100

/-- The `formatFileSize` helper of the dashboard component. -/
def formatFileSize (bytes : ℕ) : FileSizeResult :=
  if bytes = 0 then .zeroBytes
  else
    let i := Nat.log 1024 bytes
    .sized (roundTo2 ((bytes : ℚ) / (1024 : ℚ) ^ i)) (sizes.get? i)

/-! ## Core: Document Index & Retrieval Engine

The core engine (Chunker, Metadata Store, Vector Index, Index Manager,
Retrieval Engine) is not present in the source tree — the repository ships
only the web frontend and shell orchestration — so every definition in this
section is modelled from the specification (sections 3, 4 and 6 of the spec).
-/

/-- Modelled from the spec: Chunker configuration
`{chunk_size, chunk_overlap, min_chunk_size}` (spec 4.1); the Chunker code is
missing from the source tree. -/
structure ChunkerConfig where
  chunk_size : ℕ
  chunk_overlap : ℕ
  min_chunk_size : ℕ
deriving DecidableEq, Repr

/-- Modelled from the spec: the raw segment sequence of the Chunker, before
the final-segment rule.  Segment `i` starts at character offset
`i * (chunk_size - chunk_overlap)` and takes `chunk_size` characters; segments
exist while the start offset lies inside the text (spec 4.1). -/
def rawSegments (cfg : ChunkerConfig) (text : List Char) : List (List Char) :=
  let step := cfg.chunk_size - cfg.chunk_overlap
  (List.range ((text.length + step - 1) / step)).map
    (fun i => (text.drop (i * step)).take cfg.chunk_size)

/-- Modelled from the spec: the Chunker (spec 4.1); the final segment is
dropped if its length is below `min_chunk_size` unless it is the only
segment.  Total on every input: no input raises an error. -/
def chunkText (cfg : ChunkerConfig) (text : List Char) : List (List Char) :=
  let raw := rawSegments cfg text
  match raw.getLast? with
  | none => raw
  | some lastSeg =>
      if raw.length ≤ 1 then raw
      else if lastSeg.length < cfg.min_chunk_size then raw.dropLast else raw

/-- Embedding vectors: fixed-dimension numeric vectors, embedded as rational
lists (spec 6: `embed(texts) -> sequence of vector<D>`). -/
abbrev Vec := List ℚ

/-- Chunk identifiers (unique, never reused — spec 3). -/
abbrev ChunkId := ℕ

/-- Document identifiers. -/
abbrev DocId := ℕ

/-- Inner product of two vectors; the spec normalizes vectors at insertion so
that cosine similarity reduces to an inner product (spec 4.3).  Normalization
itself is folded into the embedder function. -/
def dot : Vec → Vec → ℚ
  | [], _ => 0
  | _, [] => 0
  | a :: xs, b :: ys => a * b + dot xs ys

/-- Modelled from the spec: document processing status (spec 3). -/
inductive DocStatus where
  | pending
  | processed
  | failed
deriving DecidableEq, Repr

/-- Modelled from the spec: a Metadata Store document record (spec 3). -/
structure Document where
  id : ℕ
  text : String
  status : DocStatus
deriving DecidableEq, Repr

/-- Modelled from the spec: a Metadata Store chunk record — identifier, owning
document, position within the document, raw text (spec 3). -/
structure Chunk where
  id : ℕ
  doc : ℕ
  pos : ℕ
  text : String
deriving DecidableEq, Repr

/-- Modelled from the spec: an index generation — a monotonically increasing
generation number, the exact set of chunk identifiers it contains, and the
built vector index contents (spec 3). -/
structure Generation where
  number : ℕ
  chunkIds : List ChunkId
  index : List (ChunkId × Vec)
deriving DecidableEq, Repr

/-- Modelled from the spec: `build(chunk_id_vector_pairs)` → new immutable
generation (spec 4.3). -/
def buildGen (n : ℕ) (pairs : List (ChunkId × Vec)) : Generation :=
  { number := n, chunkIds := pairs.map Prod.fst, index := pairs }

/-- Modelled from the spec: the state shared by the Metadata Store and the
Index Manager — documents, chunk records, the next fresh chunk identifier
(identifiers are never reused), the current generation, and the configured
embedding dimension. -/
structure SysState where
  docs : List Document
  chunks : List Chunk
  nextChunkId : ℕ
  gen : Generation
  dim : ℕ
deriving DecidableEq, Repr

/-- Modelled from the spec: the error taxonomy (spec 7). -/
inductive Err where
  | notFoundError
  | integrityError
  | embeddingUnavailable
  | indexBuildError
  | validationError
deriving DecidableEq, Repr

/-- The external Embedder Adapter, a black-box deterministic function from
text to a vector of the configured dimension (spec 6); availability of the
collaborator on a given call is modelled separately by a `Bool`. -/
structure Embedder where
  emb : String → Vec

/-- Modelled from the spec: `stats()` (spec 6). -/
structure Stats where
  document_count : ℕ
  chunk_count : ℕ
  vector_count : ℕ
  dimension : ℕ
deriving DecidableEq, Repr

/-- `stats()` over the system state. -/
def stats (s : SysState) : Stats :=
  { document_count := s.docs.length
    chunk_count := s.chunks.length
    vector_count := s.gen.index.length
    dimension := s.dim }

/-- The search ordering: score descending, ties broken by ascending chunk
identifier (spec 4.3). -/
def searchLe (a b : ChunkId × ℚ) : Bool :=
  decide (b.2 < a.2) || (decide (a.2 = b.2) && decide (a.1 ≤ b.1))

/-- Modelled from the spec: `search(generation, query_vector, k)` → ordered
list of `(chunk_id, score)` pairs, score descending, length
`min(k, |generation|)`, ties broken by ascending chunk identifier
(spec 4.3). -/
def search (g : Generation) (q : Vec) (k : ℕ) : List (ChunkId × ℚ) :=
  ((g.index.map (fun p => (p.1, dot q p.2))).mergeSort searchLe).take k

/-- A query against the currently visible generation of a state. -/
def searchState (s : SysState) (q : Vec) (k : ℕ) : List (ChunkId × ℚ) :=
  search s.gen q k

/-- The chunk records a new document contributes: fresh consecutive
identifiers starting at `start`, 0-based positions. -/
def mkChunks (d : DocId) (start : ℕ) (texts : List String) : List Chunk :=
  (List.range texts.length).map
    (fun i => { id := start + i, doc := d, pos := i, text := texts.getD i "" })

/-- The chunk texts of a document, as produced by the Chunker (spec 4.4). -/
def addTexts (cfg : ChunkerConfig) (text : String) : List String :=
  (chunkText cfg text.data).map (fun cs => String.mk cs)

/-- The state after a successful `add_document`: document and chunks
persisted, merged generation swapped in (spec 4.4). -/
def addSuccessState (E : Embedder) (cfg : ChunkerConfig) (s : SysState)
    (d : DocId) (text : String) : SysState :=
  { s with
      docs := s.docs ++ [{ id := d, text := text, status := .processed }]
      chunks := s.chunks ++ mkChunks d s.nextChunkId (addTexts cfg text)
      nextChunkId := s.nextChunkId + (addTexts cfg text).length
      gen := buildGen (s.gen.number + 1)
        (s.gen.index ++
          (mkChunks d s.nextChunkId (addTexts cfg text)).map
            (fun c => (c.id, E.emb c.text))) }

/-- The state after an `add_document` whose embedding failed: the document is
recorded with status `failed`, no chunks are added (spec 4.4). -/
def addFailState (s : SysState) (d : DocId) (text : String) : SysState :=
  { s with docs := s.docs ++ [{ id := d, text := text, status := .failed }] }

/-- Modelled from the spec: `add_document` (spec 4.4).  The Chunker and the
Embedder Adapter produce `(chunk_id, text, vector)` triples; on success the
document and its chunks are persisted and a merged generation is swapped in;
on embedding failure (`avail = false`) the document is recorded with status
`failed` and no chunks are added (all-or-nothing per document). -/
def addDocument (E : Embedder) (cfg : ChunkerConfig) (avail : Bool)
    (s : SysState) (d : DocId) (text : String) : SysState × Except Err Unit :=
  if d ∈ s.docs.map Document.id then (s, .error .validationError)
  else if avail then (addSuccessState E cfg s d text, .ok ())
  else (addFailState s d text, .error .embeddingUnavailable)

/-- The chunk identifiers belonging to document `d` in state `s`. -/
def deadIds (s : SysState) (d : DocId) : List ChunkId :=
  (s.chunks.filter (fun c => c.doc = d)).map Chunk.id

/-- The surviving index contents after removing document `d`'s chunks: the
current chunk set minus the deleted document's chunk identifiers
(spec 4.4). -/
def surviving (s : SysState) (d : DocId) : List (ChunkId × Vec) :=
  s.gen.index.filter (fun p => !((deadIds s d).contains p.1))

/-- The state right after the atomic swap during a delete: new generation
visible, metadata not yet deleted (spec 4.4). -/
def swapState (s : SysState) (d : DocId) : SysState :=
  { s with gen := buildGen (s.gen.number + 1) (surviving s d) }

/-- The state after a completed `delete_document`: swapped generation and
metadata cascade-delete of the document and its chunks (spec 4.4). -/
def delState (s : SysState) (d : DocId) : SysState :=
  { swapState s d with
      docs := s.docs.filter (fun c => c.id ≠ d)
      chunks := s.chunks.filter (fun c => c.doc ≠ d) }

/-- Modelled from the spec: `delete_document` (spec 4.4).  The surviving chunk
set is the current chunk set minus the deleted document's chunk identifiers; a
new generation is built from the surviving set, atomically swapped in, and
only then are the document and its chunks removed from the Metadata Store.
Deleting a nonexistent identifier returns `NotFoundError` and changes
nothing. -/
def deleteDocument (s : SysState) (d : DocId) : SysState × Except Err Unit :=
  if d ∈ s.docs.map Document.id then (delState s d, .ok ())
  else (s, .error .notFoundError)

/-- Modelled from the spec: the observable states along the delete protocol
(spec 4.4) — initial state; candidate generation built off to the side (the
visible state is unchanged); atomic swap of the current-generation pointer;
metadata delete.  A concurrent reader observes exactly one of these states. -/
def deletePhases (s : SysState) (d : DocId) : List SysState :=
  if d ∈ s.docs.map Document.id then [s, s, swapState s d, delState s d]
  else [s]

/-- The state after a successful `rebuild`: a full rebuild of the entire
current Metadata Store chunk set, atomically swapped in (spec 4.4). -/
def rebuildState (E : Embedder) (s : SysState) : SysState :=
  { s with
      gen := buildGen (s.gen.number + 1)
        (s.chunks.map (fun c => (c.id, E.emb c.text))) }

/-- Modelled from the spec: `rebuild` (spec 4.4) — unconditional full rebuild
from the entire current Metadata Store chunk set, same atomic-swap
discipline; on failure (`avail = false`, the embedder is unreachable) the
current generation is untouched and `IndexBuildError` is reported. -/
def rebuild (E : Embedder) (avail : Bool) (s : SysState) :
    SysState × Except Err Unit :=
  if avail then (rebuildState E s, .ok ())
  else (s, .error .indexBuildError)

/-- Modelled from the spec: `rebuild` consuming an availability oracle — one
`Bool` per embedder-batch call, consumed in order.  An empty oracle means the
embedder is unreachable.  The leftover oracle records how many calls the
operation made: rebuild makes exactly one and is never retried automatically
(spec 4.4). -/
def rebuildWithOracle (E : Embedder) (s : SysState) :
    List Bool → SysState × Except Err Unit × List Bool
  | [] => (s, .error .indexBuildError, [])
  | a :: rest => ((rebuild E a s).1, (rebuild E a s).2, rest)

/-- The state after `reset`: no documents, no chunks, `EMPTY` generation. -/
def resetState (s : SysState) : SysState :=
  { s with docs := [], chunks := [], gen := buildGen (s.gen.number + 1) [] }

/-- Modelled from the spec: `reset` (spec 4.4) — delete all documents and
chunks, set the current generation to `EMPTY`.  Chunk identifiers are never
reused, so the fresh-identifier counter is retained. -/
def resetSystem (s : SysState) : SysState × Except Err Unit :=
  (resetState s, .ok ())

/-- Modelled from the spec: the serialized mutation alphabet of the Index
Manager (spec 5: writes are serialized through a single mutation queue). -/
inductive Op where
  | add (d : DocId) (text : String) (avail : Bool)
  | del (d : DocId)
  | reb (avail : Bool)
  | res
deriving DecidableEq, Repr

/-- One mutation applied to the state (the caller-visible status is
discarded). -/
def applyOp (E : Embedder) (cfg : ChunkerConfig) (s : SysState) : Op → SysState
  | .add d text avail => (addDocument E cfg avail s d text).1
  | .del d => (deleteDocument s d).1
  | .reb avail => (rebuild E avail s).1
  | .res => (resetSystem s).1

/-- A serialized sequence of mutations. -/
def runOps (E : Embedder) (cfg : ChunkerConfig) (s : SysState)
    (ops : List Op) : SysState :=
  ops.foldl (applyOp E cfg) s

/-- Modelled from the spec: the `EMPTY` initial state (spec 4.4). -/
def initState (dim : ℕ) : SysState :=
  { docs := [], chunks := [], nextChunkId := 0, gen := buildGen 0 [], dim := dim }

/-- The chunk identifiers currently recorded in the Metadata Store. -/
def chunkIdList (s : SysState) : List ChunkId :=
  s.chunks.map Chunk.id

/-- The document identifiers currently recorded in the Metadata Store. -/
def docIdList (s : SysState) : List DocId :=
  s.docs.map Document.id

/-- The consistency invariant maintained by the Index Manager (spec 3): the
current generation's chunk-identifier list and index contents line up exactly
with the Metadata Store's chunk records, chunk identifiers are distinct and
below the fresh counter, and every chunk belongs to an existing document. -/
def StrongInv (s : SysState) : Prop :=
  s.gen.index.map Prod.fst = chunkIdList s ∧
  s.gen.chunkIds = chunkIdList s ∧
  (chunkIdList s).Nodup ∧
  (∀ c ∈ s.chunks, c.id < s.nextChunkId) ∧
  (∀ c ∈ s.chunks, c.doc ∈ docIdList s)

instance (s : SysState) : Decidable (StrongInv s) := by
  unfold StrongInv
  exact inferInstance

/-- A concrete embedder used to instantiate the general theorems. -/
def sampleEmbedder : Embedder :=
  { emb := fun _ => [1] }

/-- A concrete Chunker configuration (the spec's round-trip example uses
`chunk_size = 4`, `overlap = 0`). -/
def sampleCfg : ChunkerConfig :=
  { chunk_size := 4, chunk_overlap := 0, min_chunk_size := 1 }

/-- A concrete three-chunk generation used to instantiate the general
theorems. -/
def sampleGen : Generation :=
  buildGen 0 [(5, [1]), (2, [1]), (9, [2])]

/-! ## Theorems: frontend claims -/

/-- Helper for the `SourcesDisplay` partition: when every source of a list has
a numeric score, the high-relevance and regular filters split its length. -/
theorem length_filter_high_add_regular (l : List Source)
    (h : ∀ s ∈ l, s.similarity_score ≠ none) :
    (l.filter (fun s => jsGe s.similarity_score HIGH_RELEVANCE_THRESHOLD)).length +
      (l.filter (fun s => jsLt s.similarity_score HIGH_RELEVANCE_THRESHOLD)).length
      = l.length := by
  induction l with
  | nil => simp
  | cons a t ih =>
    have ha := h a (List.mem_cons_self a t)
    have ht : ∀ s ∈ t, s.similarity_score ≠ none :=
      fun s hs => h s (List.mem_cons_of_mem a hs)
    have iht := ih ht
    obtain ⟨q, hq⟩ : ∃ q, a.similarity_score = some q := by
      cases hsc : a.similarity_score with
      | none => exact absurd hsc ha
      | some q => exact ⟨q, rfl⟩
    by_cases hge : HIGH_RELEVANCE_THRESHOLD ≤ q
    · have hga : jsGe a.similarity_score HIGH_RELEVANCE_THRESHOLD = true := by
        simp [jsGe, hq, hge]
      have hla : jsLt a.similarity_score HIGH_RELEVANCE_THRESHOLD = false := by
        simp [jsLt, hq, not_lt.mpr hge]
      rw [List.filter_cons, List.filter_cons, hga, hla]
      simp only [if_true, Bool.false_eq_true, if_false, List.length_cons]
      omega
    · have hlt : q < HIGH_RELEVANCE_THRESHOLD := lt_of_not_le hge
      have hga : jsGe a.similarity_score HIGH_RELEVANCE_THRESHOLD = false := by
        simp [jsGe, hq, hge]
      have hla : jsLt a.similarity_score HIGH_RELEVANCE_THRESHOLD = true := by
        simp [jsLt, hq, hlt]
      rw [List.filter_cons, List.filter_cons, hga, hla]
      simp only [if_true, Bool.false_eq_true, if_false, List.length_cons]
      omega

/-- C9, counterexample: as stated over arbitrary source lists the claim is
false — a filtered source whose `similarity_score` is absent (`undefined` in
JavaScript) falls in neither group, so the two group lengths do not sum to the
length of `filteredSources`. -/
theorem C9_sources_partition_cex :
    (highRelevanceSources [⟨"a", "f", none⟩] "").length +
        (regularSources [⟨"a", "f", none⟩] "").length ≠
      (filteredSources [⟨"a", "f", none⟩] "").length := by
  decide

/-- C9 (amended): in `SourcesDisplay`, every filtered source with a numeric
score belongs to exactly one of `highRelevanceSources` (score ≥ 0.8) and
`regularSources` (score < 0.8); and when every filtered source has a numeric
score, the two groups' lengths sum to the length of `filteredSources`. -/
theorem C9_sources_partition (sources : List Source) (term : String) :
    (∀ s ∈ filteredSources sources term, s.similarity_score ≠ none →
      ((s ∈ highRelevanceSources sources term ∧ s ∉ regularSources sources term) ∨
        (s ∉ highRelevanceSources sources term ∧ s ∈ regularSources sources term))) ∧
    ((∀ s ∈ filteredSources sources term, s.similarity_score ≠ none) →
      (highRelevanceSources sources term).length +
          (regularSources sources term).length
        = (filteredSources sources term).length) := by
  constructor
  · intro s hs hnum
    obtain ⟨q, hq⟩ : ∃ q, s.similarity_score = some q := by
      cases hsc : s.similarity_score with
      | none => exact absurd hsc hnum
      | some q => exact ⟨q, rfl⟩
    by_cases hge : HIGH_RELEVANCE_THRESHOLD ≤ q
    · left
      refine ⟨List.mem_filter.mpr ⟨hs, by simp [jsGe, hq, hge]⟩, fun hmem => ?_⟩
      have h2 := (List.mem_filter.mp hmem).2
      simp [jsLt, hq, not_lt.mpr hge] at h2
    · right
      have hlt : q < HIGH_RELEVANCE_THRESHOLD := lt_of_not_le hge
      refine ⟨fun hmem => ?_, List.mem_filter.mpr ⟨hs, by simp [jsLt, hq, hlt]⟩⟩
      have h2 := (List.mem_filter.mp hmem).2
      simp [jsGe, hq, hge] at h2
  · intro h
    exact length_filter_high_add_regular _ h

/-- C9, witness: the amended partition at a concrete one-source list with a
numeric score. -/
theorem C9_sources_partition_witness :
    (highRelevanceSources [⟨"a", "f", some 1⟩] "").length +
        (regularSources [⟨"a", "f", some 1⟩] "").length
      = (filteredSources [⟨"a", "f", some 1⟩] "").length :=
  (C9_sources_partition [⟨"a", "f", some 1⟩] "").2 (by decide)

/-- C10: `formatFileSize 0` is the literal `'0 Bytes'`; every positive byte
count below `1024^4` is rendered as a value rounded to at most two decimal
places together with the unit `sizes[i]` for `i = ⌊log bytes / log 1024⌋`
(characterized by `1024^i ≤ bytes < 1024^(i+1)`), which is one of `'Bytes'`,
`'KB'`, `'MB'`, `'GB'`; and for byte counts of `1024^4` and above the unit
lookup falls outside the `sizes` array (JavaScript `undefined`). -/
theorem C10_formatFileSize_spec :
    formatFileSize 0 = .zeroBytes ∧
    (∀ b : ℕ, 0 < b → b < 1024 ^ 4 →
      ∃ (i : ℕ) (m : ℤ) (u : String),
        1024 ^ i ≤ b ∧ b < 1024 ^ (i + 1) ∧
        sizes.get? i = some u ∧ u ∈ sizes ∧
        formatFileSize b = .sized ((m : ℚ) / 100) (some u)) ∧
    (∀ b : ℕ, 1024 ^ 4 ≤ b →
      ∃ v : ℚ, formatFileSize b = .sized v none) := by
  refine ⟨rfl, ?_, ?_⟩
  · intro b hb hb4
    have hb0 : b ≠ 0 := Nat.pos_iff_ne_zero.mp hb
    have h1 : 1024 ^ Nat.log 1024 b ≤ b := Nat.pow_log_le_self 1024 hb0
    have h2 : b < 1024 ^ (Nat.log 1024 b + 1) :=
      Nat.lt_pow_succ_log_self (by norm_num) b
    have hile : Nat.log 1024 b < 4 := by
      by_contra hge
      push_neg at hge
      have h3 : (1024 : ℕ) ^ 4 ≤ 1024 ^ Nat.log 1024 b :=
        Nat.pow_le_pow_right (by norm_num) hge
      omega
    obtain ⟨u, hu⟩ : ∃ u, sizes.get? (Nat.log 1024 b) = some u := by
      interval_cases h : Nat.log 1024 b <;> exact ⟨_, rfl⟩
    refine ⟨Nat.log 1024 b, round ((b : ℚ) / (1024 : ℚ) ^ Nat.log 1024 b * 100),
      u, h1, h2, hu, List.get?_mem hu, ?_⟩
    rw [formatFileSize, if_neg hb0]
    simp only [hu, roundTo2]
  · intro b hb4
    have hb0 : b ≠ 0 := by positivity
    have hi4 : 4 ≤ Nat.log 1024 b := (Nat.pow_le_iff_le_log (by norm_num) hb0).mp hb4
    have hnone : sizes.get? (Nat.log 1024 b) = none := by
      rw [List.get?_eq_none]
      simpa [sizes] using hi4
    refine ⟨roundTo2 ((b : ℚ) / (1024 : ℚ) ^ Nat.log 1024 b), ?_⟩
    rw [formatFileSize, if_neg hb0]
    simp only [hnone]

/-- C10, witness: the structured rendering at the concrete byte counts `5`
(in range) and `1024^4` (out of the `sizes` array). -/
theorem C10_formatFileSize_spec_witness :
    (∃ (i : ℕ) (m : ℤ) (u : String),
      1024 ^ i ≤ 5 ∧ (5 : ℕ) < 1024 ^ (i + 1) ∧
      sizes.get? i = some u ∧ u ∈ sizes ∧
      formatFileSize 5 = .sized ((m : ℚ) / 100) (some u)) ∧
    (∃ v : ℚ, formatFileSize (1024 ^ 4) = .sized v none) :=
  ⟨C10_formatFileSize_spec.2.1 5 (by norm_num) (by norm_num),
    C10_formatFileSize_spec.2.2 (1024 ^ 4) (by norm_num)⟩


/-! ## Theorems: core engine infrastructure -/

/-- The identifiers of a fresh chunk batch are the consecutive naturals
starting at the fresh counter. -/
theorem mkChunks_map_id (d : DocId) (st : ℕ) (ts : List String) :
    (mkChunks d st ts).map Chunk.id = (List.range ts.length).map (fun i => st + i) := by
  simp [mkChunks, List.map_map]

/-- Every chunk of a fresh batch belongs to the document being added. -/
theorem mkChunks_doc (d : DocId) (st : ℕ) (ts : List String) :
    ∀ c ∈ mkChunks d st ts, c.doc = d := by
  intro c hc
  simp only [mkChunks, List.mem_map, List.mem_range] at hc
  obtain ⟨i, _, rfl⟩ := hc
  rfl

/-- Bounds on the identifiers of a fresh chunk batch. -/
theorem mem_mkChunks_id (d : DocId) (st : ℕ) (ts : List String) (x : ℕ)
    (hx : x ∈ (mkChunks d st ts).map Chunk.id) : st ≤ x ∧ x < st + ts.length := by
  rw [mkChunks_map_id] at hx
  simp only [List.mem_map, List.mem_range] at hx
  obtain ⟨i, hi, hit⟩ := hx
  omega

/-- Projecting the identifiers out of embed pairs recovers the chunk
identifiers. -/
theorem map_fst_embed_pairs (E : Embedder) (cs : List Chunk) :
    (cs.map (fun c => (c.id, E.emb c.text))).map Prod.fst = cs.map Chunk.id := by
  simp [List.map_map]

/-- The Metadata Store chunk identifiers after a successful add. -/
theorem chunkIdList_addSuccess (E : Embedder) (cfg : ChunkerConfig)
    (s : SysState) (d : DocId) (text : String) :
    chunkIdList (addSuccessState E cfg s d text)
      = chunkIdList s ++
        (List.range (addTexts cfg text).length).map (fun i => s.nextChunkId + i) := by
  show (s.chunks ++ mkChunks d s.nextChunkId (addTexts cfg text)).map Chunk.id = _
  rw [List.map_append, mkChunks_map_id]
  rfl

/-- A successful add preserves the Index Manager invariant. -/
theorem strongInv_addSuccess (E : Embedder) (cfg : ChunkerConfig)
    (s : SysState) (d : DocId) (text : String) (h : StrongInv s) :
    StrongInv (addSuccessState E cfg s d text) := by
  obtain ⟨h1, h2, h3, h4, h5⟩ := h
  refine ⟨?_, ?_, ?_, ?_, ?_⟩
  · show (s.gen.index ++
        (mkChunks d s.nextChunkId (addTexts cfg text)).map
          (fun c => (c.id, E.emb c.text))).map Prod.fst = _
    rw [List.map_append, map_fst_embed_pairs, mkChunks_map_id,
      chunkIdList_addSuccess, h1]
  · show (s.gen.index ++
        (mkChunks d s.nextChunkId (addTexts cfg text)).map
          (fun c => (c.id, E.emb c.text))).map Prod.fst = _
    rw [List.map_append, map_fst_embed_pairs, mkChunks_map_id,
      chunkIdList_addSuccess, h1]
  · rw [chunkIdList_addSuccess, List.nodup_append]
    refine ⟨h3, (List.nodup_range _).map (add_right_injective s.nextChunkId), ?_⟩
    intro a ha hb
    obtain ⟨c, hc, rfl⟩ := List.mem_map.mp ha
    have hlt : c.id < s.nextChunkId := h4 c hc
    simp only [List.mem_map, List.mem_range] at hb
    obtain ⟨i, hi, hit⟩ := hb
    have hit2 : s.nextChunkId + i = c.id := hit
    omega
  · intro c hc
    show c.id < s.nextChunkId + (addTexts cfg text).length
    rcases List.mem_append.mp hc with hcl | hcr
    · exact lt_of_lt_of_le (h4 c hcl) (Nat.le_add_right _ _)
    · simp only [mkChunks, List.mem_map, List.mem_range] at hcr
      obtain ⟨i, hi, rfl⟩ := hcr
      show s.nextChunkId + i < s.nextChunkId + (addTexts cfg text).length
      omega
  · intro c hc
    show c.doc ∈ (addSuccessState E cfg s d text).docs.map Document.id
    rcases List.mem_append.mp hc with hcl | hcr
    · show c.doc ∈ (s.docs ++
          ([{ id := d, text := text, status := .processed }] : List Document)).map Document.id
      rw [List.map_append]
      exact List.mem_append_left _ (h5 c hcl)
    · simp only [mkChunks, List.mem_map, List.mem_range] at hcr
      obtain ⟨i, hi, rfl⟩ := hcr
      show d ∈ (s.docs ++
          ([{ id := d, text := text, status := .processed }] : List Document)).map Document.id
      rw [List.map_append]
      exact List.mem_append_right _ (by simp)

/-- A failed add preserves the Index Manager invariant. -/
theorem strongInv_addFail (s : SysState) (d : DocId) (text : String)
    (h : StrongInv s) : StrongInv (addFailState s d text) := by
  obtain ⟨h1, h2, h3, h4, h5⟩ := h
  refine ⟨h1, h2, h3, h4, ?_⟩
  intro c hc
  show c.doc ∈ (s.docs ++
      ([{ id := d, text := text, status := .failed }] : List Document)).map Document.id
  rw [List.map_append]
  exact List.mem_append_left _ (h5 c hc)

/-- With distinct chunk identifiers, a chunk identifier is dead exactly when
its chunk belongs to the deleted document. -/
theorem mem_deadIds_iff (s : SysState) (d : DocId)
    (hnd : (chunkIdList s).Nodup) (c : Chunk) (hc : c ∈ s.chunks) :
    c.id ∈ deadIds s d ↔ c.doc = d := by
  constructor
  · intro hmem
    obtain ⟨c2, hc2, hid⟩ := List.mem_map.mp hmem
    have hc2' := List.mem_filter.mp hc2
    have hcc : c2 = c := List.inj_on_of_nodup_map hnd hc2'.1 hc hid
    have := hc2'.2
    rw [hcc] at this
    exact of_decide_eq_true this
  · intro hdoc
    exact List.mem_map.mpr ⟨c, List.mem_filter.mpr ⟨hc, by simp [hdoc]⟩, rfl⟩

/-- Filtering the chunk records by owning document agrees, on identifiers,
with filtering by dead identifiers. -/
theorem filter_doc_eq_filter_id (s : SysState) (d : DocId)
    (hnd : (chunkIdList s).Nodup) :
    s.chunks.filter (fun c => c.doc ≠ d)
      = s.chunks.filter ((fun cid => !((deadIds s d).contains cid)) ∘ Chunk.id) := by
  refine List.filter_congr ?_
  intro c hc
  show decide (c.doc ≠ d) = !((deadIds s d).contains c.id)
  by_cases hdoc : c.doc = d
  · have : c.id ∈ deadIds s d := (mem_deadIds_iff s d hnd c hc).mpr hdoc
    simp [hdoc, List.elem_iff.mpr this]
    exact this
  · have : c.id ∉ deadIds s d := fun hmem => hdoc ((mem_deadIds_iff s d hnd c hc).mp hmem)
    simp [hdoc]
    simpa using this

/-- The identifiers of the surviving index contents. -/
theorem surviving_map_fst (s : SysState) (d : DocId) :
    (surviving s d).map Prod.fst
      = (s.gen.index.map Prod.fst).filter (fun cid => !((deadIds s d).contains cid)) := by
  rw [List.filter_map]
  rfl

/-- The Metadata Store chunk identifiers after a delete. -/
theorem chunkIdList_delState (s : SysState) (d : DocId)
    (hnd : (chunkIdList s).Nodup) :
    chunkIdList (delState s d)
      = (chunkIdList s).filter (fun cid => !((deadIds s d).contains cid)) := by
  show (s.chunks.filter (fun c => c.doc ≠ d)).map Chunk.id = _
  rw [filter_doc_eq_filter_id s d hnd, chunkIdList, List.filter_map]

/-- The document identifiers after a delete. -/
theorem docIdList_delState (s : SysState) (d : DocId) :
    docIdList (delState s d) = (docIdList s).filter (fun x => x ≠ d) := by
  show (s.docs.filter (fun c => c.id ≠ d)).map Document.id = _
  rw [docIdList, List.filter_map]
  rfl

/-- A delete preserves the Index Manager invariant. -/
theorem strongInv_del (s : SysState) (d : DocId) (h : StrongInv s) :
    StrongInv (delState s d) := by
  obtain ⟨h1, h2, h3, h4, h5⟩ := h
  refine ⟨?_, ?_, ?_, ?_, ?_⟩
  · show (surviving s d).map Prod.fst = _
    rw [surviving_map_fst, h1, chunkIdList_delState s d h3]
  · show (surviving s d).map Prod.fst = _
    rw [surviving_map_fst, h1, chunkIdList_delState s d h3]
  · rw [chunkIdList_delState s d h3]
    exact h3.filter _
  · intro c hc
    exact h4 c (List.mem_filter.mp hc).1
  · intro c hc
    obtain ⟨hcm, hne⟩ := List.mem_filter.mp hc
    rw [docIdList_delState]
    exact List.mem_filter.mpr ⟨h5 c hcm, hne⟩

/-- A successful rebuild preserves the Index Manager invariant. -/
theorem strongInv_reb (E : Embedder) (s : SysState) (h : StrongInv s) :
    StrongInv (rebuildState E s) := by
  obtain ⟨h1, h2, h3, h4, h5⟩ := h
  refine ⟨?_, ?_, h3, h4, h5⟩
  · show (s.chunks.map (fun c => (c.id, E.emb c.text))).map Prod.fst = _
    rw [map_fst_embed_pairs]
    rfl
  · show (s.chunks.map (fun c => (c.id, E.emb c.text))).map Prod.fst = _
    rw [map_fst_embed_pairs]
    rfl

/-- A reset establishes the Index Manager invariant on the empty state. -/
theorem strongInv_res (s : SysState) : StrongInv (resetState s) := by
  refine ⟨rfl, rfl, List.nodup_nil, ?_, ?_⟩ <;> intro c hc <;> exact absurd hc (List.not_mem_nil c)

/-- Every single mutation preserves the Index Manager invariant. -/
theorem strongInv_applyOp (E : Embedder) (cfg : ChunkerConfig) (s : SysState)
    (op : Op) (h : StrongInv s) : StrongInv (applyOp E cfg s op) := by
  cases op with
  | add d text avail =>
    show StrongInv (addDocument E cfg avail s d text).1
    rw [addDocument]
    by_cases hd : d ∈ s.docs.map Document.id
    · rw [if_pos hd]
      exact h
    · rw [if_neg hd]
      cases avail with
      | true => exact strongInv_addSuccess E cfg s d text h
      | false => exact strongInv_addFail s d text h
  | del d =>
    show StrongInv (deleteDocument s d).1
    rw [deleteDocument]
    by_cases hd : d ∈ s.docs.map Document.id
    · rw [if_pos hd]
      exact strongInv_del s d h
    · rw [if_neg hd]
      exact h
  | reb avail =>
    show StrongInv (rebuild E avail s).1
    rw [rebuild]
    cases avail with
    | true => exact strongInv_reb E s h
    | false => exact h
  | res => exact strongInv_res s

/-- Every serialized mutation sequence preserves the Index Manager
invariant. -/
theorem strongInv_runOps (E : Embedder) (cfg : ChunkerConfig) (s : SysState)
    (ops : List Op) (h : StrongInv s) : StrongInv (runOps E cfg s ops) := by
  induction ops generalizing s with
  | nil => exact h
  | cons op rest ih => exact ih _ (strongInv_applyOp E cfg s op h)

/-- The `EMPTY` initial state satisfies the Index Manager invariant. -/
theorem strongInv_init (dim : ℕ) : StrongInv (initState dim) := by
  refine ⟨rfl, rfl, List.nodup_nil, ?_, ?_⟩ <;> intro c hc <;> exact absurd hc (List.not_mem_nil c)


/-- Adding a document with a failed embedding leaves its dead-identifier set
empty, provided the document was not already present. -/
theorem deadIds_addFail (s : SysState) (d : DocId) (text : String)
    (h5 : ∀ c ∈ s.chunks, c.doc ∈ docIdList s) (hd : d ∉ docIdList s) :
    deadIds (addFailState s d text) d = [] := by
  show ((s.chunks.filter (fun c => c.doc = d)).map Chunk.id) = []
  rw [List.filter_eq_nil_iff.mpr, List.map_nil]
  intro c hc
  simp only [decide_eq_true_eq]
  intro hdoc
  exact hd (hdoc ▸ h5 c hc)

/-- Deleting a document right after its failed add restores the chunk records
and the index contents. -/
theorem delState_addFail (s : SysState) (d : DocId) (text : String)
    (h5 : ∀ c ∈ s.chunks, c.doc ∈ docIdList s) (hd : d ∉ docIdList s) :
    (delState (addFailState s d text) d).chunks = s.chunks ∧
    (delState (addFailState s d text) d).gen.index = s.gen.index := by
  constructor
  · show (s.chunks.filter (fun c => c.doc ≠ d)) = s.chunks
    refine List.filter_eq_self.mpr ?_
    intro c hc
    simp only [ne_eq, decide_not, Bool.not_eq_eq_eq_not, Bool.not_true,
      decide_eq_false_iff_not]
    intro hdoc
    exact hd (hdoc ▸ h5 c hc)
  · show surviving (addFailState s d text) d = s.gen.index
    rw [surviving, deadIds_addFail s d text h5 hd]
    exact List.filter_eq_self.mpr (fun a _ => rfl)

/-- After a successful add of a fresh document, the dead identifiers of that
document are exactly the identifiers of the freshly created chunks. -/
theorem deadIds_addSuccess (E : Embedder) (cfg : ChunkerConfig) (s : SysState)
    (d : DocId) (text : String)
    (h5 : ∀ c ∈ s.chunks, c.doc ∈ docIdList s) (hd : d ∉ docIdList s) :
    deadIds (addSuccessState E cfg s d text) d
      = (mkChunks d s.nextChunkId (addTexts cfg text)).map Chunk.id := by
  show ((s.chunks ++ mkChunks d s.nextChunkId (addTexts cfg text)).filter
      (fun c => c.doc = d)).map Chunk.id = _
  rw [List.filter_append,
    List.filter_eq_nil_iff.mpr (fun c hc => by
      simp only [decide_eq_true_eq]
      intro hdoc
      exact hd (hdoc ▸ h5 c hc)),
    List.filter_eq_self.mpr (fun c hc => by
      simp only [decide_eq_true_eq]
      exact mkChunks_doc d s.nextChunkId (addTexts cfg text) c hc),
    List.nil_append]

/-- Deleting a fresh document right after its successful add restores the
chunk records and the index contents. -/
theorem delState_addSuccess (E : Embedder) (cfg : ChunkerConfig) (s : SysState)
    (d : DocId) (text : String) (hInv : StrongInv s) (hd : d ∉ docIdList s) :
    (delState (addSuccessState E cfg s d text) d).chunks = s.chunks ∧
    (delState (addSuccessState E cfg s d text) d).gen.index = s.gen.index := by
  obtain ⟨h1, h2, h3, h4, h5⟩ := hInv
  constructor
  · show ((s.chunks ++ mkChunks d s.nextChunkId (addTexts cfg text)).filter
        (fun c => c.doc ≠ d)) = s.chunks
    rw [List.filter_append,
      List.filter_eq_self.mpr (fun c hc => by
        simp only [ne_eq, decide_not, Bool.not_eq_eq_eq_not, Bool.not_true,
          decide_eq_false_iff_not]
        intro hdoc
        exact hd (hdoc ▸ h5 c hc)),
      List.filter_eq_nil_iff.mpr (fun c hc => by
        simpa using mkChunks_doc d s.nextChunkId (addTexts cfg text) c hc),
      List.append_nil]
  · show surviving (addSuccessState E cfg s d text) d = s.gen.index
    rw [surviving, deadIds_addSuccess E cfg s d text h5 hd]
    show (s.gen.index ++
        (mkChunks d s.nextChunkId (addTexts cfg text)).map
          (fun c => (c.id, E.emb c.text))).filter _ = s.gen.index
    rw [List.filter_append,
      List.filter_eq_self.mpr (fun p hp => by
        have hp1 : p.1 ∈ chunkIdList s := by
          rw [←h1]
          exact List.mem_map.mpr ⟨p, hp, rfl⟩
        obtain ⟨c, hc, hcid⟩ := List.mem_map.mp hp1
        have hlt : p.1 < s.nextChunkId := hcid ▸ h4 c hc
        have hnm : p.1 ∉ (mkChunks d s.nextChunkId (addTexts cfg text)).map Chunk.id :=
          fun hmem => absurd (mem_mkChunks_id d s.nextChunkId (addTexts cfg text) p.1 hmem).1
            (not_le.mpr hlt)
        simpa using hnm),
      List.filter_eq_nil_iff.mpr (fun p hp => by
        have hp1 : p.1 ∈ (mkChunks d s.nextChunkId (addTexts cfg text)).map Chunk.id := by
          rw [←map_fst_embed_pairs E]
          exact List.mem_map.mpr ⟨p, hp, rfl⟩
        simpa using List.elem_iff.mpr hp1),
      List.append_nil]

/-- Every result returned by a search on a state satisfying the invariant
names a chunk identifier recorded in the Metadata Store. -/
theorem search_subset_ids (s : SysState) (q : Vec) (k : ℕ) (p : ChunkId × ℚ)
    (h1 : s.gen.index.map Prod.fst = chunkIdList s)
    (hp : p ∈ searchState s q k) : p.1 ∈ chunkIdList s := by
  have h2 := (List.take_sublist k _).mem hp
  have h3 := List.mem_mergeSort.mp h2
  obtain ⟨e, he, rfl⟩ := List.mem_map.mp h3
  rw [←h1]
  exact List.mem_map.mpr ⟨e, he, rfl⟩

/-- A chunk identifier that is absent from the Metadata Store and below the
fresh counter stays absent across any single mutation. -/
theorem fresh_applyOp (E : Embedder) (cfg : ChunkerConfig) (s : SysState) (op : Op)
    (cid : ℕ) (hInv : StrongInv s) (hmem : cid ∉ chunkIdList s)
    (hlt : cid < s.nextChunkId) :
    cid ∉ chunkIdList (applyOp E cfg s op) ∧ cid < (applyOp E cfg s op).nextChunkId := by
  obtain ⟨h1, h2, h3, h4, h5⟩ := hInv
  cases op with
  | add d text avail =>
    show cid ∉ chunkIdList (addDocument E cfg avail s d text).1 ∧
      cid < (addDocument E cfg avail s d text).1.nextChunkId
    rw [addDocument]
    by_cases hd : d ∈ s.docs.map Document.id
    · rw [if_pos hd]
      exact ⟨hmem, hlt⟩
    · rw [if_neg hd]
      cases avail with
      | false => exact ⟨hmem, hlt⟩
      | true =>
        constructor
        · show cid ∉ chunkIdList (addSuccessState E cfg s d text)
          rw [chunkIdList_addSuccess]
          intro hc
          rcases List.mem_append.mp hc with hcl | hcr
          · exact hmem hcl
          · simp only [List.mem_map, List.mem_range] at hcr
            obtain ⟨i, hi, hit⟩ := hcr
            have hit2 : s.nextChunkId + i = cid := hit
            omega
        · show cid < s.nextChunkId + (addTexts cfg text).length
          omega
  | del d =>
    show cid ∉ chunkIdList (deleteDocument s d).1 ∧
      cid < (deleteDocument s d).1.nextChunkId
    rw [deleteDocument]
    by_cases hd : d ∈ s.docs.map Document.id
    · rw [if_pos hd]
      refine ⟨?_, hlt⟩
      show cid ∉ chunkIdList (delState s d)
      rw [chunkIdList_delState s d h3]
      intro hc
      exact hmem (List.mem_filter.mp hc).1
    · rw [if_neg hd]
      exact ⟨hmem, hlt⟩
  | reb avail =>
    show cid ∉ chunkIdList (rebuild E avail s).1 ∧
      cid < (rebuild E avail s).1.nextChunkId
    rw [rebuild]
    cases avail with
    | true => exact ⟨hmem, hlt⟩
    | false => exact ⟨hmem, hlt⟩
  | res => exact ⟨fun hc => absurd hc (List.not_mem_nil cid), hlt⟩

/-- A chunk identifier that is absent from the Metadata Store and below the
fresh counter never reappears, whatever mutations follow (identifiers are
never reused). -/
theorem fresh_runOps (E : Embedder) (cfg : ChunkerConfig) (s : SysState)
    (ops : List Op) (cid : ℕ) (hInv : StrongInv s) (hmem : cid ∉ chunkIdList s)
    (hlt : cid < s.nextChunkId) : cid ∉ chunkIdList (runOps E cfg s ops) := by
  induction ops generalizing s with
  | nil => exact hmem
  | cons op rest ih =>
    obtain ⟨hm2, hl2⟩ := fresh_applyOp E cfg s op cid hInv hmem hlt
    exact ih _ (strongInv_applyOp E cfg s op hInv) hm2 hl2


/-! ## Theorems: core engine claims -/

/-- The search ordering is transitive. -/
theorem searchLe_trans (a b c : ChunkId × ℚ) (hab : searchLe a b = true)
    (hbc : searchLe b c = true) : searchLe a c = true := by
  simp only [searchLe, Bool.or_eq_true, Bool.and_eq_true, decide_eq_true_eq] at *
  rcases hab with h1 | ⟨h1, h2⟩ <;> rcases hbc with h3 | ⟨h3, h4⟩
  · exact Or.inl (h3.trans h1)
  · exact Or.inl (h3 ▸ h1)
  · exact Or.inl (h1 ▸ h3)
  · exact Or.inr ⟨h1.trans h3, h2.trans h4⟩

/-- The search ordering is total. -/
theorem searchLe_total (a b : ChunkId × ℚ) :
    (searchLe a b || searchLe b a) = true := by
  simp only [searchLe, Bool.or_eq_true, Bool.and_eq_true, decide_eq_true_eq]
  rcases lt_trichotomy a.2 b.2 with h | h | h
  · exact Or.inr (Or.inl h)
  · rcases le_total a.1 b.1 with h1 | h1
    · exact Or.inl (Or.inr ⟨h, h1⟩)
    · exact Or.inr (Or.inr ⟨h.symm, h1⟩)
  · exact Or.inl (Or.inl h)

/-- C1: for every generation `g`, query vector `q` and count `k`,
`search g q k` is a list of `(chunk_id, score)` pairs of length
`min k |g|`, with scores non-increasing, ties broken by ascending chunk
identifier, and every returned pair is the identifier of an index entry of
`g` together with its score against `q`. -/
theorem C1_search_spec (g : Generation) (q : Vec) (k : ℕ) :
    (search g q k).length = min k g.index.length ∧
    (search g q k).Pairwise (fun a b => b.2 ≤ a.2 ∧ (a.2 = b.2 → a.1 ≤ b.1)) ∧
    (∀ p ∈ search g q k, ∃ e ∈ g.index, p = (e.1, dot q e.2)) := by
  refine ⟨?_, ?_, ?_⟩
  · simp [search, List.length_take, List.length_mergeSort]
  · have hs := List.sorted_mergeSort searchLe_trans searchLe_total
      (g.index.map (fun p => (p.1, dot q p.2)))
    have hp := hs.sublist (List.take_sublist k _)
    refine hp.imp ?_
    intro a b h
    simp only [searchLe, Bool.or_eq_true, Bool.and_eq_true, decide_eq_true_eq] at h
    rcases h with h1 | ⟨h1, h2⟩
    · exact ⟨h1.le, fun heq => absurd (heq ▸ h1) (lt_irrefl _)⟩
    · exact ⟨le_of_eq h1.symm, fun _ => h2⟩
  · intro p hp
    have h1 : p ∈ (g.index.map (fun p => (p.1, dot q p.2))).mergeSort searchLe :=
      (List.take_sublist k _).mem hp
    have h2 := List.mem_mergeSort.mp h1
    obtain ⟨e, he, rfl⟩ := List.mem_map.mp h2
    exact ⟨e, he, rfl⟩

/-- C1, witness: the length law at a concrete three-entry generation. -/
theorem C1_search_spec_witness :
    (search sampleGen [1] 2).length = min 2 sampleGen.index.length :=
  (C1_search_spec sampleGen [1] 2).1

/-- C2: after every serialized sequence of add/delete/rebuild/reset
operations from the empty state, the generation's chunk set and index have
the same size, the Metadata Store has as many chunks as the index has
vectors, and a chunk identifier is reachable from an existing (non-deleted)
document iff it is in the current generation's chunk set. -/
theorem C2_consistency (E : Embedder) (cfg : ChunkerConfig) (dim : ℕ)
    (ops : List Op) :
    (runOps E cfg (initState dim) ops).gen.chunkIds.length
        = (runOps E cfg (initState dim) ops).gen.index.length ∧
    (runOps E cfg (initState dim) ops).chunks.length
        = (runOps E cfg (initState dim) ops).gen.index.length ∧
    (∀ cid : ChunkId,
      (∃ c ∈ (runOps E cfg (initState dim) ops).chunks,
        c.id = cid ∧ c.doc ∈ docIdList (runOps E cfg (initState dim) ops)) ↔
      cid ∈ (runOps E cfg (initState dim) ops).gen.chunkIds) := by
  obtain ⟨h1, h2, h3, h4, h5⟩ :=
    strongInv_runOps E cfg (initState dim) ops (strongInv_init dim)
  refine ⟨?_, ?_, ?_⟩
  · rw [h2, ←h1, List.length_map]
  · have hthis := congrArg List.length h1
    rw [List.length_map] at hthis
    have hcl : (chunkIdList (runOps E cfg (initState dim) ops)).length
        = (runOps E cfg (initState dim) ops).chunks.length := List.length_map _ _
    rw [hthis, hcl]
  · intro cid
    rw [h2]
    constructor
    · rintro ⟨c, hc, rfl, _⟩
      exact List.mem_map.mpr ⟨c, hc, rfl⟩
    · intro hmem
      obtain ⟨c, hc, rfl⟩ := List.mem_map.mp hmem
      exact ⟨c, hc, rfl, h5 c hc⟩

/-- C2, witness: the count laws after one concrete add from the empty
state. -/
theorem C2_consistency_witness :
    (runOps sampleEmbedder sampleCfg (initState 1) [Op.add 0 "aaaabbbb" true]).chunks.length
      = (runOps sampleEmbedder sampleCfg (initState 1)
          [Op.add 0 "aaaabbbb" true]).gen.index.length :=
  (C2_consistency sampleEmbedder sampleCfg 1 [Op.add 0 "aaaabbbb" true]).2.1

/-- C3: adding a fresh document and then deleting it restores
`stats().chunk_count` and `stats().vector_count` to their pre-add values,
and no chunk of that document is returned by any query issued after the
delete completes, whatever further mutations run in between. -/
theorem C3_add_delete_roundtrip (E : Embedder) (cfg : ChunkerConfig)
    (avail : Bool) (s : SysState) (d : DocId) (text : String)
    (hInv : StrongInv s) (hd : d ∉ docIdList s) :
    (stats (deleteDocument (addDocument E cfg avail s d text).1 d).1).chunk_count
        = (stats s).chunk_count ∧
    (stats (deleteDocument (addDocument E cfg avail s d text).1 d).1).vector_count
        = (stats s).vector_count ∧
    (∀ (ops : List Op) (q : Vec) (k : ℕ) (p : ChunkId × ℚ),
      p ∈ searchState
        (runOps E cfg (deleteDocument (addDocument E cfg avail s d text).1 d).1 ops)
        q k →
      p.1 ∉ deadIds (addDocument E cfg avail s d text).1 d) := by
  have hd' : d ∉ s.docs.map Document.id := hd
  cases avail with
  | true =>
    have hs1 : (addDocument E cfg true s d text).1 = addSuccessState E cfg s d text := by
      rw [addDocument, if_neg hd']
      rfl
    rw [hs1]
    have hmem1 : d ∈ (addSuccessState E cfg s d text).docs.map Document.id := by
      show d ∈ (s.docs ++
          ([{ id := d, text := text, status := .processed }] : List Document)).map
          Document.id
      rw [List.map_append]
      exact List.mem_append_right _ (by simp)
    have hdel : (deleteDocument (addSuccessState E cfg s d text) d).1
        = delState (addSuccessState E cfg s d text) d := by
      rw [deleteDocument, if_pos hmem1]
    rw [hdel]
    obtain ⟨hch, hidx⟩ := delState_addSuccess E cfg s d text hInv hd
    have hInv1 : StrongInv (addSuccessState E cfg s d text) :=
      strongInv_addSuccess E cfg s d text hInv
    have hInv2 : StrongInv (delState (addSuccessState E cfg s d text) d) :=
      strongInv_del _ d hInv1
    refine ⟨?_, ?_, ?_⟩
    · show (delState (addSuccessState E cfg s d text) d).chunks.length = s.chunks.length
      rw [hch]
    · show (delState (addSuccessState E cfg s d text) d).gen.index.length
        = s.gen.index.length
      rw [hidx]
    · intro ops q k p hp hpd
      rw [deadIds_addSuccess E cfg s d text hInv.2.2.2.2 hd] at hpd
      obtain ⟨hge, hltd⟩ := mem_mkChunks_id d s.nextChunkId (addTexts cfg text) p.1 hpd
      have hInv3 := strongInv_runOps E cfg _ ops hInv2
      have hp1 := search_subset_ids _ q k p hInv3.1 hp
      have hmemd : p.1 ∉ chunkIdList (delState (addSuccessState E cfg s d text) d) := by
        show p.1 ∉ (delState (addSuccessState E cfg s d text) d).chunks.map Chunk.id
        rw [hch]
        intro hc
        obtain ⟨c, hcm, hcid⟩ := List.mem_map.mp hc
        have hcb : (c.id : ℕ) < s.nextChunkId := hInv.2.2.2.1 c hcm
        have hcid2 : (c.id : ℕ) = (p.1 : ℕ) := hcid
        omega
      have hltn : p.1 < (delState (addSuccessState E cfg s d text) d).nextChunkId := hltd
      exact fresh_runOps E cfg _ ops p.1 hInv2 hmemd hltn hp1
  | false =>
    have hs1 : (addDocument E cfg false s d text).1 = addFailState s d text := by
      rw [addDocument, if_neg hd']
      rfl
    rw [hs1]
    have hmem1 : d ∈ (addFailState s d text).docs.map Document.id := by
      show d ∈ (s.docs ++
          ([{ id := d, text := text, status := .failed }] : List Document)).map
          Document.id
      rw [List.map_append]
      exact List.mem_append_right _ (by simp)
    have hdel : (deleteDocument (addFailState s d text) d).1
        = delState (addFailState s d text) d := by
      rw [deleteDocument, if_pos hmem1]
    rw [hdel]
    obtain ⟨hch, hidx⟩ := delState_addFail s d text hInv.2.2.2.2 hd
    refine ⟨?_, ?_, ?_⟩
    · show (delState (addFailState s d text) d).chunks.length = s.chunks.length
      rw [hch]
    · show (delState (addFailState s d text) d).gen.index.length = s.gen.index.length
      rw [hidx]
    · intro ops q k p hp hpd
      rw [deadIds_addFail s d text hInv.2.2.2.2 hd] at hpd
      exact absurd hpd (List.not_mem_nil _)

/-- C3, witness: chunk count restored after a concrete add/delete round trip
from the empty state. -/
theorem C3_add_delete_roundtrip_witness :
    (stats (deleteDocument
        (addDocument sampleEmbedder sampleCfg true (initState 1) 0 "aaaabbbb").1 0).1).chunk_count
      = (stats (initState 1)).chunk_count :=
  (C3_add_delete_roundtrip sampleEmbedder sampleCfg true (initState 1) 0 "aaaabbbb"
    (by decide) (by decide)).1


/-- C4: a query observing any state along the delete protocol — before the
candidate build, after the build but before the swap, after the atomic swap,
or after the final metadata delete — sees either the fully-pre-delete or the
fully-post-delete search results, never a mixture; and the last protocol
phase is exactly the completed delete. -/
theorem C4_delete_atomicity (s : SysState) (d : DocId) (q : Vec) (k : ℕ) :
    (deletePhases s d).getLast? = some (deleteDocument s d).1 ∧
    ∀ st ∈ deletePhases s d,
      search st.gen q k = search s.gen q k ∨
      search st.gen q k = search (deleteDocument s d).1.gen q k := by
  by_cases h : d ∈ s.docs.map Document.id
  · constructor
    · simp [deletePhases, deleteDocument, h]
    · intro st hst
      simp only [deletePhases, if_pos h, List.mem_cons, List.not_mem_nil,
        or_false] at hst
      rcases hst with rfl | rfl | rfl | rfl
      · left; rfl
      · left; rfl
      · right
        rw [deleteDocument, if_pos h]
        rfl
      · right
        rw [deleteDocument, if_pos h]
  · constructor
    · simp [deletePhases, deleteDocument, h]
    · intro st hst
      simp only [deletePhases, if_neg h, List.mem_singleton] at hst
      subst hst
      left
      rfl

/-- C4, witness: the last delete-protocol phase of a concrete delete is the
completed delete. -/
theorem C4_delete_atomicity_witness :
    (deletePhases (initState 1) 0).getLast? = some (deleteDocument (initState 1) 0).1 :=
  (C4_delete_atomicity (initState 1) 0 [1] 1).1

/-- C5: two successive successful rebuilds with no intervening mutation are
both reported as `ok`, produce generations with identical chunk sets (indeed
identical index contents), and strictly increase the generation number. -/
theorem C5_rebuild_idempotent (E : Embedder) (s : SysState) :
    (rebuild E true s).2 = .ok () ∧
    (rebuild E true (rebuild E true s).1).2 = .ok () ∧
    (rebuild E true (rebuild E true s).1).1.gen.chunkIds
      = (rebuild E true s).1.gen.chunkIds ∧
    (rebuild E true (rebuild E true s).1).1.gen.index
      = (rebuild E true s).1.gen.index ∧
    (rebuild E true s).1.gen.number
      < (rebuild E true (rebuild E true s).1).1.gen.number := by
  simp [rebuild, rebuildState, buildGen]

/-- C5, witness: the chunk sets of two successive rebuilds agree on a
concrete state. -/
theorem C5_rebuild_idempotent_witness :
    (rebuild sampleEmbedder true (rebuild sampleEmbedder true (initState 1)).1).1.gen.chunkIds
      = (rebuild sampleEmbedder true (initState 1)).1.gen.chunkIds :=
  (C5_rebuild_idempotent sampleEmbedder (initState 1)).2.2.1

/-- C6: when the embedder is unreachable on the rebuild's only
embedding-batch call, the state (in particular the current generation) is
completely unchanged, the failure is reported as `IndexBuildError`, and
exactly one oracle entry is consumed — the rebuild is never retried
automatically. -/
theorem C6_rebuild_failure (E : Embedder) (s : SysState) (o : List Bool)
    (h : o.head? = some false) :
    rebuildWithOracle E s o = (s, .error .indexBuildError, o.tail) := by
  cases o with
  | nil => simp at h
  | cons a rest =>
    simp only [List.head?_cons, Option.some.injEq] at h
    subst h
    simp [rebuildWithOracle, rebuild]

/-- C6, witness: a concrete failed rebuild leaves the empty state unchanged
and consumes exactly its one oracle entry. -/
theorem C6_rebuild_failure_witness :
    rebuildWithOracle sampleEmbedder (initState 1) [false]
      = (initState 1, .error .indexBuildError, []) :=
  C6_rebuild_failure sampleEmbedder (initState 1) [false] rfl

/-- C7: deleting a document identifier that is not in the Metadata Store
returns `NotFoundError` and leaves the state, hence `stats()`
(document_count, chunk_count, vector_count, dimension), unchanged. -/
theorem C7_delete_nonexistent (s : SysState) (d : DocId)
    (h : d ∉ s.docs.map Document.id) :
    deleteDocument s d = (s, .error .notFoundError) ∧
    stats (deleteDocument s d).1 = stats s := by
  have he : deleteDocument s d = (s, .error .notFoundError) := by
    simp [deleteDocument, h]
  exact ⟨he, by rw [he]⟩

/-- C7, witness: deleting from the empty state returns `NotFoundError` and
changes nothing. -/
theorem C7_delete_nonexistent_witness :
    deleteDocument (initState 1) 0 = (initState 1, .error .notFoundError) :=
  (C7_delete_nonexistent (initState 1) 0 (by decide)).1


/-- The Chunker's output is the raw segment sequence, possibly with its last
segment removed. -/
theorem chunkText_eq_or (cfg : ChunkerConfig) (text : List Char) :
    chunkText cfg text = rawSegments cfg text ∨
      chunkText cfg text = (rawSegments cfg text).dropLast := by
  cases hl : (rawSegments cfg text).getLast? with
  | none => simp [chunkText, hl]
  | some l =>
    simp only [chunkText, hl]
    by_cases h1 : (rawSegments cfg text).length ≤ 1
    · simp [h1]
    · by_cases h2 : l.length < cfg.min_chunk_size
      · simp [h1, h2]
      · simp [h1, h2]

/-- C8: the Chunker is a deterministic total function; for every well-formed
configuration (`chunk_overlap < chunk_size`) the empty input yields the empty
sequence, segment `i` of the output is the `chunk_size`-character slice of
the text starting at offset `i * (chunk_size - chunk_overlap)`, and the final
raw segment is dropped exactly when there are at least two segments and its
length is below `min_chunk_size`. -/
theorem C8_chunker_spec (cfg : ChunkerConfig)
    (h : cfg.chunk_overlap < cfg.chunk_size) :
    chunkText cfg [] = [] ∧
    (∀ text : List Char, ∀ i : ℕ, ∀ hi : i < (chunkText cfg text).length,
      (chunkText cfg text).get ⟨i, hi⟩ =
        (text.drop (i * (cfg.chunk_size - cfg.chunk_overlap))).take cfg.chunk_size) ∧
    (∀ text : List Char, 2 ≤ (rawSegments cfg text).length →
      ((rawSegments cfg text).getLast?.getD []).length < cfg.min_chunk_size →
      chunkText cfg text = (rawSegments cfg text).dropLast) ∧
    (∀ text : List Char,
      ¬(2 ≤ (rawSegments cfg text).length ∧
          ((rawSegments cfg text).getLast?.getD []).length < cfg.min_chunk_size) →
      chunkText cfg text = rawSegments cfg text) := by
  have hstep : 0 < cfg.chunk_size - cfg.chunk_overlap := Nat.sub_pos_of_lt h
  refine ⟨?_, ?_, ?_, ?_⟩
  · have : rawSegments cfg [] = [] := by
      simp [rawSegments, Nat.div_eq_of_lt (Nat.sub_lt hstep Nat.one_pos)]
    simp [chunkText, this]
  · intro text i hi
    simp only [List.get_eq_getElem]
    rcases chunkText_eq_or cfg text with hc | hc
    · revert hi
      rw [hc]
      intro hi
      simp [rawSegments]
    · revert hi
      rw [hc]
      intro hi
      rw [List.getElem_dropLast]
      simp [rawSegments]
  · intro text h2 hlast
    have hne : rawSegments cfg text ≠ [] := by
      intro he
      rw [he] at h2
      simp at h2
    have hl : (rawSegments cfg text).getLast? =
        some ((rawSegments cfg text).getLast hne) :=
      List.getLast?_eq_getLast _ hne
    have hg : ((rawSegments cfg text).getLast?.getD []) =
        (rawSegments cfg text).getLast hne := by
      rw [hl]
      rfl
    rw [hg] at hlast
    simp only [chunkText, hl]
    rw [if_neg (by omega), if_pos hlast]
  · intro text hnot
    push_neg at hnot
    cases hl : (rawSegments cfg text).getLast? with
    | none => simp [chunkText, hl]
    | some l =>
      simp only [chunkText, hl]
      by_cases h1 : (rawSegments cfg text).length ≤ 1
      · rw [if_pos h1]
      · rw [if_neg h1]
        have hg : ((rawSegments cfg text).getLast?.getD []) = l := by
          rw [hl]
          rfl
        have := hnot (by omega)
        rw [hg] at this
        rw [if_neg (by omega)]

/-- C8, witness: the empty input yields the empty segment sequence under the
concrete configuration. -/
theorem C8_chunker_spec_witness : chunkText sampleCfg [] = [] :=
  (C8_chunker_spec sampleCfg (by decide)).1

end RagSystem
